import Mathlib

/-!
Shallow embedding of `src/runner.rs` of the rogcat repository:
the lossy line decoder (`LossyLines`) and the process stream
supervisor (`Runner`), together with proofs of the specified
properties.

Bytes are modelled as `Nat` (values < 256 in the intended use),
strings as lists of unicode scalar values (`List Nat`).
-/

namespace Rogcat

/-! ## Unicode whitespace, modelling `str::split_whitespace` -/

/-- The Unicode `White_Space` code points, as used by Rust's
`char::is_whitespace` (called via `str::split_whitespace` in
`Runner::run`). -/
def isWhitespaceChar (c : Nat) : Bool :=
  [0x09, 0x0A, 0x0B, 0x0C, 0x0D, 0x20, 0x85, 0xA0, 0x1680,
   0x2000, 0x2001, 0x2002, 0x2003, 0x2004, 0x2005, 0x2006, 0x2007,
   0x2008, 0x2009, 0x200A, 0x2028, 0x2029, 0x202F, 0x205F, 0x3000].contains c

/-- Accumulator-based splitter: `acc` is the current token, reversed. -/
def splitWsAux : List Nat → List Nat → List (List Nat)
  | [], acc => if acc = [] then [] else [acc.reverse]
  | c :: r, acc =>
    if isWhitespaceChar c then
      if acc = [] then splitWsAux r [] else acc.reverse :: splitWsAux r []
    else splitWsAux r (c :: acc)

/-- Model of `cmd.split_whitespace().map(..).collect::<Vec<String>>()`
in `Runner::run`. -/
def splitWhitespace (l : List Nat) : List (List Nat) := splitWsAux l []

/-- Model of the token extraction in `Runner::run`:
`Command::new(&cmd[0]).args(&cmd[1..])`.  The indexing `cmd[0]`
has no emptiness guard in the source; `none` models the panic that
occurs when the split produces no token. -/
def Runner.run (cmd : List Nat) : Option (List Nat × List (List Nat)) :=
  match splitWhitespace cmd with
  | [] => none
  | p :: args => some (p, args)

/-! ## UTF-8 lossy decoding, modelling `String::from_utf8_lossy`

`utf8Step` performs one step of Rust's UTF-8 validation
(`core::str::run_utf8_validation` together with the maximal-subpart
substitution of `Utf8Lossy`): it consumes one scalar's worth of bytes
and reports `some scalar`, or consumes the bytes of one invalid
chunk and reports `none` (which the lossy decoder turns into U+FFFD).
-/

/-- Continuation byte test: `0x80 ..= 0xBF`. -/
def utf8Cont (b : Nat) : Bool := 0x80 ≤ b && b ≤ 0xBF

/-- One decoding step.  Returns `none` on empty input, otherwise
`some (result, rest)` where `result = some scalar` for a valid
sequence and `result = none` for an invalid chunk (skipped per
Rust's error_len rules: 1, 2 or 3 bytes, or the whole incomplete
tail at end of input). -/
def utf8Step : List Nat → Option (Option Nat × List Nat)
  | [] => none
  | b0 :: r =>
    if b0 < 0x80 then some (some b0, r)
    else if b0 < 0xC2 then some (none, r)
    else if b0 ≤ 0xDF then
      match r with
      | [] => some (none, [])
      | b1 :: r2 =>
        if utf8Cont b1 then
          some (some ((b0 - 0xC0) * 0x40 + (b1 - 0x80)), r2)
        else some (none, b1 :: r2)
    else if b0 ≤ 0xEF then
      match r with
      | [] => some (none, [])
      | b1 :: r2 =>
        if (if b0 = 0xE0 then 0xA0 ≤ b1 && b1 ≤ 0xBF
            else if b0 = 0xED then 0x80 ≤ b1 && b1 ≤ 0x9F
            else utf8Cont b1) then
          match r2 with
          | [] => some (none, [])
          | b2 :: r3 =>
            if utf8Cont b2 then
              some (some ((b0 - 0xE0) * 0x1000 + (b1 - 0x80) * 0x40 + (b2 - 0x80)), r3)
            else some (none, b2 :: r3)
        else some (none, b1 :: r2)
    else if b0 ≤ 0xF4 then
      match r with
      | [] => some (none, [])
      | b1 :: r2 =>
        if (if b0 = 0xF0 then 0x90 ≤ b1 && b1 ≤ 0xBF
            else if b0 = 0xF4 then 0x80 ≤ b1 && b1 ≤ 0x8F
            else utf8Cont b1) then
          match r2 with
          | [] => some (none, [])
          | b2 :: r3 =>
            if utf8Cont b2 then
              match r3 with
              | [] => some (none, [])
              | b3 :: r4 =>
                if utf8Cont b3 then
                  some (some ((b0 - 0xF0) * 0x40000 + (b1 - 0x80) * 0x1000 +
                              (b2 - 0x80) * 0x40 + (b3 - 0x80)), r4)
                else some (none, b3 :: r4)
            else some (none, b2 :: r3)
        else some (none, b1 :: r2)
    else some (none, r)

/-- Fuelled lossy decoder; the fuel is an upper bound on the number
of steps, each step consumes at least one byte. -/
def utf8DecodeAux : Nat → List Nat → List Nat
  | 0, _ => []
  | f + 1, bs =>
    match utf8Step bs with
    | none => []
    | some (some c, rest) => c :: utf8DecodeAux f rest
    | some (none, rest) => 0xFFFD :: utf8DecodeAux f rest

/-- Model of `String::from_utf8_lossy`, byte list to scalar list. -/
def utf8LossyDecode (bs : List Nat) : List Nat := utf8DecodeAux bs.length bs

/-- Fuelled validity checker with the same step structure. -/
def utf8ValidAux : Nat → List Nat → Bool
  | 0, _ => true
  | f + 1, bs =>
    match utf8Step bs with
    | none => true
    | some (some _, rest) => utf8ValidAux f rest
    | some (none, _) => false

/-- `bs` is well-formed UTF-8 (decoding it meets no invalid chunk). -/
def utf8IsValid (bs : List Nat) : Bool := utf8ValidAux bs.length bs

/-! ## The lossy line decoder, modelling `LossyLines` -/

/-- Model of `io.read_until(b'\n', ..)` over a pure byte list:
returns the consumed chunk (up to and including the first `0x0A`,
or everything if there is none) and the remaining bytes. -/
def readUntilNL : List Nat → List Nat × List Nat
  | [] => ([], [])
  | b :: r =>
    if b = 10 then ([10], r)
    else (b :: (readUntilNL r).1, (readUntilNL r).2)

/-- Model of `struct LossyLines`: `io` is the not-yet-consumed bytes
of the underlying readable (a pure source; end of the list is EOF),
`buffer` the internal accumulation buffer. -/
structure LossyLines where
  io : List Nat
  buffer : List Nat
deriving DecidableEq

/-- Model of `<LossyLines as Stream>::poll`.  With a pure byte-list
source the read never blocks and never fails, so the result is
`none` (stream end, `Ok(Ready(None))`) or `some line`
(`Ok(Ready(Some(line)))`).  Note the unconditional `buffer.pop()`
of the source, modelled by `dropLast`. -/
def LossyLines.poll (s : LossyLines) : Option (List Nat) × LossyLines :=
  let (chunk, rest) := readUntilNL s.io
  let n := chunk.length
  let buf := s.buffer ++ chunk
  if n = 0 ∧ buf = [] then (none, ⟨rest, buf⟩)
  else (some (utf8LossyDecode buf.dropLast), ⟨rest, []⟩)

/-- Fuelled repeated polling of a `LossyLines`, collecting emitted
lines until the stream ends. -/
def lossyDrainAux : Nat → LossyLines → List (List Nat)
  | 0, _ => []
  | f + 1, s =>
    match s.poll with
    | (none, _) => []
    | (some l, s') => l :: lossyDrainAux f s'

/-- All lines the decoder emits before terminating. -/
def LossyLines.drain (s : LossyLines) : List (List Nat) :=
  lossyDrainAux (s.io.length + s.buffer.length) s

/-- The line sequence produced by `lossy_lines` over a byte source. -/
def linesOfBytes (bs : List Nat) : List (List Nat) :=
  LossyLines.drain ⟨bs, []⟩

/-! ## The merged stream, modelling `Stream::select` of futures 0.1 -/

/-- Model of `lossy_lines(stdout).select(lossy_lines(stderr))`:
the state of futures 0.1's `Select` combinator. -/
structure Select where
  stream1 : LossyLines
  stream2 : LossyLines
  flag : Bool
deriving DecidableEq

/-- Model of `<Select as Stream>::poll`: polls the stream the flag
points away from first, flipping the flag; if that one is done,
polls the other and on success flips the flag back.  With pure
sources neither underlying poll blocks or fails. -/
def Select.poll (m : Select) : Option (List Nat) × Select :=
  if m.flag then
    match m.stream2.poll with
    | (some l, s2') => (some l, ⟨m.stream1, s2', false⟩)
    | (none, s2') =>
      match m.stream1.poll with
      | (some l, s1') => (some l, ⟨s1', s2', true⟩)
      | (none, s1') => (none, ⟨s1', s2', false⟩)
  else
    match m.stream1.poll with
    | (some l, s1') => (some l, ⟨s1', m.stream2, true⟩)
    | (none, s1') =>
      match m.stream2.poll with
      | (some l, s2') => (some l, ⟨s1', s2', false⟩)
      | (none, s2') => (none, ⟨s1', s2', true⟩)

/-- Total number of unconsumed bytes held by a `Select`. -/
def Select.measure (m : Select) : Nat :=
  m.stream1.io.length + m.stream1.buffer.length +
  m.stream2.io.length + m.stream2.buffer.length

/-- Fuelled repeated polling of the merged stream. -/
def selectDrainAux : Nat → Select → List (List Nat)
  | 0, _ => []
  | f + 1, m =>
    match m.poll with
    | (none, _) => []
    | (some l, m') => l :: selectDrainAux f m'

/-- All lines the merged stream emits before both sides end. -/
def Select.drain (m : Select) : List (List Nat) :=
  selectDrainAux m.measure m

/-- The merged line sequence of the two pipes of a spawned child. -/
def mergedLines (outBytes errBytes : List Nat) : List (List Nat) :=
  Select.drain ⟨⟨outBytes, []⟩, ⟨errBytes, []⟩, false⟩

/-- `Interleave a b c`: `c` is an order-preserving merge of `a` and
`b`, each element of `a` and of `b` appearing exactly once. -/
inductive Interleave : List (List Nat) → List (List Nat) → List (List Nat) → Prop
  | nil : Interleave [] [] []
  | left {x : List Nat} {a b c : List (List Nat)} :
      Interleave a b c → Interleave (x :: a) b (x :: c)
  | right {x : List Nat} {a b c : List (List Nat)} :
      Interleave a b c → Interleave a (x :: b) (x :: c)

/-! ## The supervisor, modelling `Runner` -/

/-- One poll result of the boxed merged output stream owned by the
`Runner` (`OutStream`): a decoded line, `NotReady`, or an I/O
error. -/
inductive OutEvent
  | line (s : List Nat)
  | notReady
  | ioError
deriving DecidableEq

/-- A world maps a command string and a spawn ordinal to the trace
of poll results of the merged stream obtained by `Runner::run`;
after the trace is exhausted every further poll of that stream
yields `Ready(None)` (both pipes closed). -/
abbrev World := List Nat → Nat → List OutEvent

/-- Model of `Record`; only the `raw` field is set by the runner. -/
structure Record where
  raw : List Nat
deriving DecidableEq

/-- One result of `<Runner as Stream>::poll`:
`item r` is `Ok(Ready(Some(Some(r))))`, `marker` is
`Ok(Ready(Some(None)))`, `endOfStream` is `Ok(Ready(None))`,
`notReady` is `Ok(NotReady)` and `error` is `Err(e)`. -/
inductive RunnerPoll
  | item (r : Record)
  | marker
  | notReady
  | endOfStream
  | error
deriving DecidableEq

/-- Model of `struct Runner`.  `child` is the ordinal of the spawn
that produced the currently owned child handle, `output` the
remaining trace of the owned merged stream. -/
structure Runner where
  child : Nat
  cmd : List Nat
  head : Option Nat
  output : List OutEvent
  restart : Bool
deriving DecidableEq

/-- Model of `<Runner as Stream>::poll`.  The `Nat` fuel bounds the
number of iterations of the source's `loop`; the loop repeats only
through the restart branch, so any execution that returns is
reproduced with enough fuel.  `none` means the fuel ran out. -/
def Runner.poll : Nat → Runner → World → Option (RunnerPoll × Runner)
  | 0, _, _ => none
  | fuel + 1, st, w =>
    if st.head = some 0 then some (.endOfStream, st)
    else
      match st.output with
      | .line s :: rest =>
          some (.item ⟨s⟩, { st with output := rest, head := st.head.map (· - 1) })
      | .notReady :: rest => some (.notReady, { st with output := rest })
      | .ioError :: rest => some (.error, { st with output := rest })
      | [] =>
          if st.restart then
            Runner.poll fuel
              { st with child := st.child + 1, output := w st.cmd (st.child + 1) } w
          else some (.marker, st)

/-- Repeated polling of the runner: `k` polls, each with the given
fuel, collecting the results. -/
def Runner.runN : Nat → Nat → Runner → World → List RunnerPoll × Runner
  | 0, _, st, _ => ([], st)
  | k + 1, fuel, st, w =>
    match Runner.poll fuel st w with
    | none => ([], st)
    | some (r, st') =>
      (r :: (Runner.runN k fuel st' w).1, (Runner.runN k fuel st' w).2)

/-- Whether a poll result delivered a line to the caller. -/
def isItem : RunnerPoll → Bool
  | .item _ => true
  | _ => false

/-- Number of lines delivered in a list of poll results. -/
def countItems (rs : List RunnerPoll) : Nat := rs.countP isItem

/-! ## Lemmas about the UTF-8 decoder -/

theorem utf8Step_length {bs : List Nat} {r : Option Nat} {rest : List Nat}
    (h : utf8Step bs = some (r, rest)) : rest.length < bs.length := by
  cases bs with
  | nil => simp [utf8Step] at h
  | cons b0 t =>
    simp only [utf8Step] at h
    repeat' split at h
    all_goals
      first
      | (cases h; simp_all; omega)
      | (cases h; simp_all)
      | simp_all

theorem utf8DecodeAux_nil (f : Nat) : utf8DecodeAux f [] = [] := by
  cases f <;> simp [utf8DecodeAux, utf8Step]

theorem utf8DecodeAux_congr :
    ∀ (n : Nat) (bs : List Nat) (f g : Nat), bs.length ≤ n →
      bs.length ≤ f → bs.length ≤ g →
      utf8DecodeAux f bs = utf8DecodeAux g bs := by
  intro n
  induction n with
  | zero =>
    intro bs f g hn _ _
    have hbs : bs = [] := List.length_eq_zero.mp (Nat.le_zero.mp hn)
    subst hbs
    rw [utf8DecodeAux_nil, utf8DecodeAux_nil]
  | succ n ih =>
    intro bs f g hn hf hg
    cases bs with
    | nil => rw [utf8DecodeAux_nil, utf8DecodeAux_nil]
    | cons b t =>
      cases f with
      | zero => simp at hf
      | succ f' =>
        cases g with
        | zero => simp at hg
        | succ g' =>
          simp only [utf8DecodeAux]
          cases hstep : utf8Step (b :: t) with
          | none => rfl
          | some pr =>
            obtain ⟨r, rest⟩ := pr
            have hlt := utf8Step_length hstep
            simp only [List.length_cons] at hn hf hg hlt
            cases r with
            | none =>
              exact congrArg (List.cons 0xFFFD) (ih rest f' g' (by omega) (by omega) (by omega))
            | some c =>
              exact congrArg (List.cons c) (ih rest f' g' (by omega) (by omega) (by omega))

theorem utf8LossyDecode_eq (bs : List Nat) :
    utf8LossyDecode bs =
      match utf8Step bs with
      | none => []
      | some (some c, rest) => c :: utf8LossyDecode rest
      | some (none, rest) => 0xFFFD :: utf8LossyDecode rest := by
  cases bs with
  | nil => rfl
  | cons b t =>
    show utf8DecodeAux (t.length + 1) (b :: t) = _
    simp only [utf8DecodeAux]
    cases hstep : utf8Step (b :: t) with
    | none => rfl
    | some pr =>
      obtain ⟨r, rest⟩ := pr
      have hlt := utf8Step_length hstep
      simp only [List.length_cons] at hlt
      have hx : utf8DecodeAux t.length rest = utf8LossyDecode rest :=
        utf8DecodeAux_congr t.length rest t.length rest.length
          (by omega) (by omega) (le_refl _)
      cases r <;> simp [hx]

theorem utf8ValidAux_nil (f : Nat) : utf8ValidAux f [] = true := by
  cases f <;> simp [utf8ValidAux, utf8Step]

theorem utf8ValidAux_congr :
    ∀ (n : Nat) (bs : List Nat) (f g : Nat), bs.length ≤ n →
      bs.length ≤ f → bs.length ≤ g →
      utf8ValidAux f bs = utf8ValidAux g bs := by
  intro n
  induction n with
  | zero =>
    intro bs f g hn _ _
    have hbs : bs = [] := List.length_eq_zero.mp (Nat.le_zero.mp hn)
    subst hbs
    rw [utf8ValidAux_nil, utf8ValidAux_nil]
  | succ n ih =>
    intro bs f g hn hf hg
    cases bs with
    | nil => rw [utf8ValidAux_nil, utf8ValidAux_nil]
    | cons b t =>
      cases f with
      | zero => simp at hf
      | succ f' =>
        cases g with
        | zero => simp at hg
        | succ g' =>
          simp only [utf8ValidAux]
          cases hstep : utf8Step (b :: t) with
          | none => rfl
          | some pr =>
            obtain ⟨r, rest⟩ := pr
            have hlt := utf8Step_length hstep
            simp only [List.length_cons] at hn hf hg hlt
            cases r with
            | none => rfl
            | some c =>
              exact ih rest f' g' (by omega) (by omega) (by omega)

theorem utf8IsValid_eq (bs : List Nat) :
    utf8IsValid bs =
      match utf8Step bs with
      | none => true
      | some (some _, rest) => utf8IsValid rest
      | some (none, _) => false := by
  cases bs with
  | nil => rfl
  | cons b t =>
    show utf8ValidAux (t.length + 1) (b :: t) = _
    simp only [utf8ValidAux]
    cases hstep : utf8Step (b :: t) with
    | none => rfl
    | some pr =>
      obtain ⟨r, rest⟩ := pr
      have hlt := utf8Step_length hstep
      simp only [List.length_cons] at hlt
      have hx : utf8ValidAux t.length rest = utf8IsValid rest :=
        utf8ValidAux_congr t.length rest t.length rest.length
          (by omega) (by omega) (le_refl _)
      cases r <;> simp [hx]

/-! ## Lemmas about the lossy line decoder -/

theorem readUntilNL_append (src : List Nat) :
    (readUntilNL src).1 ++ (readUntilNL src).2 = src := by
  induction src with
  | nil => rfl
  | cons b r ih =>
    simp only [readUntilNL]
    split
    · simp_all
    · simp [ih]

theorem readUntilNL_fst_eq_nil {src : List Nat} :
    (readUntilNL src).1 = [] ↔ src = [] := by
  cases src with
  | nil => simp [readUntilNL]
  | cons b r =>
    simp only [readUntilNL]
    split <;> simp

theorem readUntilNL_no_nl (src : List Nat) :
    10 ∉ (readUntilNL src).1.dropLast := by
  induction src with
  | nil => simp [readUntilNL]
  | cons b r ih =>
    simp only [readUntilNL]
    split
    · simp
    · rename_i h
      cases hc : (readUntilNL r).1 with
      | nil => simp
      | cons x xs =>
        rw [hc] at ih
        simp only [List.dropLast_cons₂, List.mem_cons] at ih ⊢
        exact fun hor => hor.elim (fun he => h he.symm) ih

theorem LossyLines.poll_none {s s' : LossyLines} (h : s.poll = (none, s')) :
    s' = s ∧ s.io = [] ∧ s.buffer = [] := by
  obtain ⟨io, buffer⟩ := s
  simp only [LossyLines.poll] at h
  split at h
  · rename_i hcond
    obtain ⟨hn, hbuf⟩ := hcond
    have hchunk : (readUntilNL io).1 = [] := List.length_eq_zero.mp hn
    have hio : io = [] := readUntilNL_fst_eq_nil.mp hchunk
    subst hio
    simp only [readUntilNL, List.append_nil] at h hbuf
    subst hbuf
    exact ⟨(Prod.ext_iff.mp h).2.symm, rfl, rfl⟩
  · simp at h

theorem LossyLines.poll_some {s : LossyLines} {l : List Nat} {s' : LossyLines}
    (h : s.poll = (some l, s')) :
    s'.io.length + s'.buffer.length < s.io.length + s.buffer.length ∧
    s'.buffer = [] ∧
    l = utf8LossyDecode ((s.buffer ++ (readUntilNL s.io).1).dropLast) ∧
    s'.io = (readUntilNL s.io).2 := by
  simp only [LossyLines.poll] at h
  split at h
  · simp at h
  · rename_i hcond
    obtain ⟨hl, hs⟩ := Prod.mk.injEq .. |>.mp h
    have hl' : l = utf8LossyDecode ((s.buffer ++ (readUntilNL s.io).1).dropLast) :=
      (Option.some.injEq .. |>.mp hl).symm
    have hio : s'.io = (readUntilNL s.io).2 := by rw [← hs]
    have hbuf : s'.buffer = [] := by rw [← hs]
    refine ⟨?_, hbuf, hl', hio⟩
    have happ := readUntilNL_append s.io
    rw [hio, hbuf]
    by_cases hc : (readUntilNL s.io).1 = []
    · have hio0 : s.io = [] := readUntilNL_fst_eq_nil.mp hc
      have hb : s.buffer ≠ [] := by
        intro hb0
        exact hcond ⟨by simp [hc], by simp [hc, hb0]⟩
      have h2 : (readUntilNL s.io).2 = [] := by
        rw [hio0]
        rfl
      rw [h2]
      simp only [List.length_nil]
      have := List.length_pos.mpr hb
      omega
    · have h1 : 1 ≤ (readUntilNL s.io).1.length := by
        have := List.length_pos.mpr hc
        omega
      have hlen : (readUntilNL s.io).1.length + (readUntilNL s.io).2.length = s.io.length := by
        have h2 := congrArg List.length happ
        simpa [List.length_append] using h2
      simp only [List.length_nil]
      omega

theorem lossyDrainAux_congr :
    ∀ (n : Nat) (s : LossyLines) (f g : Nat),
      s.io.length + s.buffer.length ≤ n →
      s.io.length + s.buffer.length ≤ f →
      s.io.length + s.buffer.length ≤ g →
      lossyDrainAux f s = lossyDrainAux g s := by
  intro n
  induction n with
  | zero =>
    intro s f g hn _ _
    have hio : s.io = [] := by
      have := List.length_eq_zero.mp (by omega : s.io.length = 0)
      exact this
    have hb : s.buffer = [] := by
      have := List.length_eq_zero.mp (by omega : s.buffer.length = 0)
      exact this
    have hs : s = ⟨[], []⟩ := by
      cases s
      simp_all
    subst hs
    have hp : LossyLines.poll ⟨[], []⟩ = (none, ⟨[], []⟩) := by decide
    cases f <;> cases g <;> simp [lossyDrainAux, hp]
  | succ n ih =>
    intro s f g hn hf hg
    cases hp : s.poll with
    | mk r s' =>
      cases r with
      | none => cases f <;> cases g <;> simp [lossyDrainAux, hp]
      | some l =>
        have hm := (LossyLines.poll_some hp).1
        cases f with
        | zero => omega
        | succ f' =>
          cases g with
          | zero => omega
          | succ g' =>
            simp only [lossyDrainAux, hp]
            exact congrArg (List.cons l)
              (ih s' f' g' (by omega) (by omega) (by omega))

theorem lossyLinesDrain_eq (s : LossyLines) :
    s.drain =
      match s.poll with
      | (none, _) => []
      | (some l, s') => l :: s'.drain := by
  unfold LossyLines.drain
  cases hp : s.poll with
  | mk r s' =>
    cases r with
    | none =>
      obtain ⟨_, hio, hb⟩ := LossyLines.poll_none hp
      rw [hio, hb]
      rfl
    | some l =>
      have hm := (LossyLines.poll_some hp).1
      have hpos : 1 ≤ s.io.length + s.buffer.length := by omega
      obtain ⟨k, hk⟩ : ∃ k, s.io.length + s.buffer.length = k + 1 :=
        ⟨s.io.length + s.buffer.length - 1, by omega⟩
      rw [hk]
      simp only [lossyDrainAux, hp]
      exact congrArg (List.cons l)
        (lossyDrainAux_congr k s' k (s'.io.length + s'.buffer.length)
          (by omega) (by omega) (le_refl _))

/-! ## Lemmas about the merged stream -/

theorem Select.poll_some_measure {m : Select} {l : List Nat} {m' : Select}
    (h : m.poll = (some l, m')) : m'.measure < m.measure := by
  unfold Select.poll at h
  unfold Select.measure
  split at h
  · cases hp2 : m.stream2.poll with
    | mk r2 s2' =>
      rw [hp2] at h
      cases r2 with
      | some l2 =>
        simp only [Prod.mk.injEq, Option.some.injEq] at h
        obtain ⟨-, rfl⟩ := h
        have := (LossyLines.poll_some hp2).1
        simp only
        omega
      | none =>
        obtain ⟨rfl, -, -⟩ := LossyLines.poll_none hp2
        cases hp1 : m.stream1.poll with
        | mk r1 s1' =>
          rw [hp1] at h
          cases r1 with
          | some l1 =>
            simp only [Prod.mk.injEq, Option.some.injEq] at h
            obtain ⟨-, rfl⟩ := h
            have := (LossyLines.poll_some hp1).1
            simp only
            omega
          | none => simp at h
  · cases hp1 : m.stream1.poll with
    | mk r1 s1' =>
      rw [hp1] at h
      cases r1 with
      | some l1 =>
        simp only [Prod.mk.injEq, Option.some.injEq] at h
        obtain ⟨-, rfl⟩ := h
        have := (LossyLines.poll_some hp1).1
        simp only
        omega
      | none =>
        obtain ⟨rfl, -, -⟩ := LossyLines.poll_none hp1
        cases hp2 : m.stream2.poll with
        | mk r2 s2' =>
          rw [hp2] at h
          cases r2 with
          | some l2 =>
            simp only [Prod.mk.injEq, Option.some.injEq] at h
            obtain ⟨-, rfl⟩ := h
            have := (LossyLines.poll_some hp2).1
            simp only
            omega
          | none => simp at h

theorem Select.poll_some_src {m : Select} {l : List Nat} {m' : Select}
    (h : m.poll = (some l, m')) :
    (m.stream1.poll = (some l, m'.stream1) ∧ m'.stream2 = m.stream2) ∨
    (m.stream2.poll = (some l, m'.stream2) ∧ m'.stream1 = m.stream1) := by
  unfold Select.poll at h
  split at h
  · cases hp2 : m.stream2.poll with
    | mk r2 s2' =>
      rw [hp2] at h
      cases r2 with
      | some l2 =>
        simp only [Prod.mk.injEq, Option.some.injEq] at h
        obtain ⟨rfl, rfl⟩ := h
        exact Or.inr ⟨rfl, rfl⟩
      | none =>
        obtain ⟨rfl, -, -⟩ := LossyLines.poll_none hp2
        cases hp1 : m.stream1.poll with
        | mk r1 s1' =>
          rw [hp1] at h
          cases r1 with
          | some l1 =>
            simp only [Prod.mk.injEq, Option.some.injEq] at h
            obtain ⟨rfl, rfl⟩ := h
            exact Or.inl ⟨rfl, rfl⟩
          | none => simp at h
  · cases hp1 : m.stream1.poll with
    | mk r1 s1' =>
      rw [hp1] at h
      cases r1 with
      | some l1 =>
        simp only [Prod.mk.injEq, Option.some.injEq] at h
        obtain ⟨rfl, rfl⟩ := h
        exact Or.inl ⟨rfl, rfl⟩
      | none =>
        obtain ⟨rfl, -, -⟩ := LossyLines.poll_none hp1
        cases hp2 : m.stream2.poll with
        | mk r2 s2' =>
          rw [hp2] at h
          cases r2 with
          | some l2 =>
            simp only [Prod.mk.injEq, Option.some.injEq] at h
            obtain ⟨rfl, rfl⟩ := h
            exact Or.inr ⟨rfl, rfl⟩
          | none => simp at h

theorem Select.poll_none_src {m : Select} {m' : Select}
    (h : m.poll = (none, m')) :
    (m.stream1.poll).1 = none ∧ (m.stream2.poll).1 = none := by
  unfold Select.poll at h
  split at h
  · cases hp2 : m.stream2.poll with
    | mk r2 s2' =>
      rw [hp2] at h
      cases r2 with
      | some l2 => simp at h
      | none =>
        cases hp1 : m.stream1.poll with
        | mk r1 s1' =>
          rw [hp1] at h
          cases r1 with
          | some l1 => simp at h
          | none => simp [hp1, hp2]
  · cases hp1 : m.stream1.poll with
    | mk r1 s1' =>
      rw [hp1] at h
      cases r1 with
      | some l1 => simp at h
      | none =>
        cases hp2 : m.stream2.poll with
        | mk r2 s2' =>
          rw [hp2] at h
          cases r2 with
          | some l2 => simp at h
          | none => simp [hp1, hp2]

theorem selectDrainAux_congr :
    ∀ (n : Nat) (m : Select) (f g : Nat),
      m.measure ≤ n → m.measure ≤ f → m.measure ≤ g →
      selectDrainAux f m = selectDrainAux g m := by
  intro n
  induction n with
  | zero =>
    intro m f g hn _ _
    obtain ⟨⟨io1, b1⟩, ⟨io2, b2⟩, flag⟩ := m
    simp only [Select.measure] at hn
    have h1 : io1 = [] := List.length_eq_zero.mp (by omega)
    have h2 : b1 = [] := List.length_eq_zero.mp (by omega)
    have h3 : io2 = [] := List.length_eq_zero.mp (by omega)
    have h4 : b2 = [] := List.length_eq_zero.mp (by omega)
    subst h1; subst h2; subst h3; subst h4
    have hp : Select.poll ⟨⟨[], []⟩, ⟨[], []⟩, flag⟩ =
        (none, ⟨⟨[], []⟩, ⟨[], []⟩, !flag ∧ false ∨ ¬flag ∧ true⟩) := by
      cases flag <;> decide
    cases f <;> cases g <;> simp [selectDrainAux, hp]
  | succ n ih =>
    intro m f g hn hf hg
    cases hp : m.poll with
    | mk r m' =>
      cases r with
      | none => cases f <;> cases g <;> simp [selectDrainAux, hp]
      | some l =>
        have hm := Select.poll_some_measure hp
        cases f with
        | zero => omega
        | succ f' =>
          cases g with
          | zero => omega
          | succ g' =>
            simp only [selectDrainAux, hp]
            exact congrArg (List.cons l)
              (ih m' f' g' (by omega) (by omega) (by omega))

theorem selectDrain_eq (m : Select) :
    m.drain =
      match m.poll with
      | (none, _) => []
      | (some l, m') => l :: m'.drain := by
  unfold Select.drain
  cases hp : m.poll with
  | mk r m' =>
    cases r with
    | none =>
      cases hμ : m.measure with
      | zero => simp [selectDrainAux]
      | succ k => simp [selectDrainAux, hp]
    | some l =>
      have hm := Select.poll_some_measure hp
      obtain ⟨k, hk⟩ : ∃ k, m.measure = k + 1 := ⟨m.measure - 1, by omega⟩
      rw [hk]
      simp only [selectDrainAux, hp]
      exact congrArg (List.cons l)
        (selectDrainAux_congr k m' k m'.measure (by omega) (by omega) (le_refl _))

/-- Draining the merged stream yields an interleaving of the two
underlying line sequences. -/
theorem select_drain_interleave :
    ∀ (n : Nat) (m : Select), m.measure ≤ n →
      Interleave m.stream1.drain m.stream2.drain m.drain := by
  intro n
  induction n with
  | zero =>
    intro m hn
    obtain ⟨⟨io1, b1⟩, ⟨io2, b2⟩, flag⟩ := m
    simp only [Select.measure] at hn
    have h1 : io1 = [] := List.length_eq_zero.mp (by omega)
    have h2 : b1 = [] := List.length_eq_zero.mp (by omega)
    have h3 : io2 = [] := List.length_eq_zero.mp (by omega)
    have h4 : b2 = [] := List.length_eq_zero.mp (by omega)
    subst h1; subst h2; subst h3; subst h4
    have hd : LossyLines.drain ⟨[], []⟩ = [] := rfl
    have hsd : Select.drain ⟨⟨[], []⟩, ⟨[], []⟩, flag⟩ = [] := rfl
    simp only [hd, hsd]
    exact Interleave.nil
  | succ n ih =>
    intro m hn
    rw [selectDrain_eq m]
    cases hp : m.poll with
    | mk r m' =>
      cases r with
      | none =>
        obtain ⟨h1, h2⟩ := Select.poll_none_src hp
        have hd1 : m.stream1.drain = [] := by
          rw [lossyLinesDrain_eq]
          cases hq : m.stream1.poll with
          | mk r1 s1' =>
            rw [hq] at h1
            cases r1 with
            | none => rfl
            | some l1 => simp at h1
        have hd2 : m.stream2.drain = [] := by
          rw [lossyLinesDrain_eq]
          cases hq : m.stream2.poll with
          | mk r2 s2' =>
            rw [hq] at h2
            cases r2 with
            | none => rfl
            | some l2 => simp at h2
        rw [hd1, hd2]
        exact Interleave.nil
      | some l =>
        have hμ := Select.poll_some_measure hp
        have hih := ih m' (by omega)
        rcases Select.poll_some_src hp with ⟨h1, h2⟩ | ⟨h1, h2⟩
        · have hd1 : m.stream1.drain = l :: m'.stream1.drain := by
            rw [lossyLinesDrain_eq, h1]
          rw [hd1, ← h2]
          exact Interleave.left hih
        · have hd2 : m.stream2.drain = l :: m'.stream2.drain := by
            rw [lossyLinesDrain_eq, h1]
          rw [hd2, ← h2]
          exact Interleave.right hih

/-! ## Further decoding lemmas -/

theorem utf8Step_no_nl {bs : List Nat} {r : Option Nat} {rest : List Nat}
    (h : utf8Step bs = some (r, rest)) (hbs : 10 ∉ bs) :
    10 ∉ rest ∧ r ≠ some 10 := by
  cases bs with
  | nil => simp [utf8Step] at h
  | cons b0 t =>
    simp only [utf8Step] at h
    repeat' split at h
    all_goals
      first
      | (cases h; simp_all [utf8Cont]; omega)
      | (cases h; simp_all [utf8Cont])
      | simp_all

theorem utf8LossyDecode_no_nl :
    ∀ (n : Nat) (bs : List Nat), bs.length ≤ n → 10 ∉ bs →
      10 ∉ utf8LossyDecode bs := by
  intro n
  induction n with
  | zero =>
    intro bs hn _
    have hbs : bs = [] := List.length_eq_zero.mp (Nat.le_zero.mp hn)
    subst hbs
    simp [utf8LossyDecode, utf8DecodeAux_nil]
  | succ n ih =>
    intro bs hn hbs
    rw [utf8LossyDecode_eq]
    cases hstep : utf8Step bs with
    | none => simp
    | some pr =>
      obtain ⟨r, rest⟩ := pr
      have hlen := utf8Step_length hstep
      obtain ⟨hrest, hr⟩ := utf8Step_no_nl hstep hbs
      cases r with
      | none =>
        simp only [List.mem_cons, not_or]
        exact ⟨by omega, ih rest (by omega) hrest⟩
      | some c =>
        simp only [List.mem_cons, not_or]
        refine ⟨fun he => hr ?_, ih rest (by omega) hrest⟩
        rw [he]

theorem utf8IsValid_false_mem :
    ∀ (n : Nat) (bs : List Nat), bs.length ≤ n → utf8IsValid bs = false →
      0xFFFD ∈ utf8LossyDecode bs := by
  intro n
  induction n with
  | zero =>
    intro bs hn hv
    have hbs : bs = [] := List.length_eq_zero.mp (Nat.le_zero.mp hn)
    subst hbs
    simp [utf8IsValid, utf8ValidAux_nil] at hv
  | succ n ih =>
    intro bs hn hv
    rw [utf8IsValid_eq] at hv
    rw [utf8LossyDecode_eq]
    cases hstep : utf8Step bs with
    | none => rw [hstep] at hv; simp at hv
    | some pr =>
      obtain ⟨r, rest⟩ := pr
      have hlen := utf8Step_length hstep
      rw [hstep] at hv
      cases r with
      | none => simp
      | some c =>
        simp only at hv
        simp only [List.mem_cons]
        exact Or.inr (ih rest (by omega) hv)

theorem utf8LossyDecode_ascii_append :
    ∀ (p bs : List Nat), (∀ c ∈ p, c < 0x80) →
      utf8LossyDecode (p ++ bs) = p ++ utf8LossyDecode bs := by
  intro p
  induction p with
  | nil => intro bs _; simp
  | cons a p ih =>
    intro bs hp
    have ha : a < 0x80 := hp a (List.mem_cons_self a p)
    rw [List.cons_append, utf8LossyDecode_eq]
    have hstep : utf8Step (a :: (p ++ bs)) = some (some a, p ++ bs) := by
      simp [utf8Step, ha]
    rw [hstep]
    simp only
    rw [ih bs (fun c hc => hp c (List.mem_cons_of_mem a hc))]
    simp

theorem utf8LossyDecode_invalid_cons (s : List Nat) :
    utf8LossyDecode (0xFF :: s) = 0xFFFD :: utf8LossyDecode s := by
  rw [utf8LossyDecode_eq]
  have hstep : utf8Step (0xFF :: s) = some (none, s) := by
    simp [utf8Step]
  rw [hstep]

/-! ## Lemmas about the supervisor -/

theorem Runner.poll_endS :
    ∀ (f : Nat) (st : Runner) (w : World) (st' : Runner),
      Runner.poll f st w = some (.endOfStream, st') →
      st.head = some 0 ∧ st' = st := by
  intro f
  induction f with
  | zero => intro st w st' h; simp [Runner.poll] at h
  | succ f ih =>
    intro st w st' h
    simp only [Runner.poll] at h
    split at h
    · rename_i hh
      simp only [Option.some.injEq, Prod.mk.injEq] at h
      exact ⟨hh, h.2.symm⟩
    · rename_i hh
      split at h
      · simp at h
      · simp at h
      · simp at h
      · split at h
        · exact absurd (ih _ w st' h).1 hh
        · simp at h

theorem Runner.poll_marker :
    ∀ (f : Nat) (st : Runner) (w : World) (st' : Runner),
      Runner.poll f st w = some (.marker, st') → st.restart = false := by
  intro f
  induction f with
  | zero => intro st w st' h; simp [Runner.poll] at h
  | succ f ih =>
    intro st w st' h
    simp only [Runner.poll] at h
    split at h
    · simp at h
    · split at h
      · simp at h
      · simp at h
      · simp at h
      · split at h
        · rename_i hr
          exact absurd (ih _ w st' h) (by simpa using hr)
        · rename_i hr
          simpa using hr

theorem Runner.poll_item_head :
    ∀ (f : Nat) (st : Runner) (w : World) (rec : Record) (st' : Runner),
      Runner.poll f st w = some (.item rec, st') →
      st.head ≠ some 0 ∧ st'.head = st.head.map (· - 1) := by
  intro f
  induction f with
  | zero => intro st w rec st' h; simp [Runner.poll] at h
  | succ f ih =>
    intro st w rec st' h
    simp only [Runner.poll] at h
    split at h
    · simp at h
    · rename_i hh
      split at h
      · simp only [Option.some.injEq, Prod.mk.injEq] at h
        exact ⟨hh, by rw [← h.2]⟩
      · simp at h
      · simp at h
      · split at h
        · exact ih { st with child := st.child + 1, output := w st.cmd (st.child + 1) }
            w rec st' h
        · simp at h

theorem Runner.poll_nonitem_head :
    ∀ (f : Nat) (st : Runner) (w : World) (r : RunnerPoll) (st' : Runner),
      Runner.poll f st w = some (r, st') → isItem r = false →
      st'.head = st.head := by
  intro f
  induction f with
  | zero => intro st w r st' h; simp [Runner.poll] at h
  | succ f ih =>
    intro st w r st' h hni
    simp only [Runner.poll] at h
    split at h
    · simp only [Option.some.injEq, Prod.mk.injEq] at h
      rw [← h.2]
    · split at h
      · obtain ⟨rfl, -⟩ := Prod.mk.injEq .. |>.mp (Option.some.injEq .. |>.mp h)
        simp [isItem] at hni
      · simp only [Option.some.injEq, Prod.mk.injEq] at h
        rw [← h.2]
      · simp only [Option.some.injEq, Prod.mk.injEq] at h
        rw [← h.2]
      · split at h
        · exact ih { st with child := st.child + 1, output := w st.cmd (st.child + 1) }
            w r st' h hni
        · simp only [Option.some.injEq, Prod.mk.injEq] at h
          rw [← h.2]

theorem Runner.poll_spawn_only_on_exhaustion :
    ∀ (f : Nat) (st : Runner) (w : World) (r : RunnerPoll) (st' : Runner),
      Runner.poll f st w = some (r, st') → st'.child ≠ st.child →
      st.output = [] := by
  intro f
  induction f with
  | zero => intro st w r st' h; simp [Runner.poll] at h
  | succ f ih =>
    intro st w r st' h hc
    simp only [Runner.poll] at h
    split at h
    · simp only [Option.some.injEq, Prod.mk.injEq] at h
      exact absurd (congrArg Runner.child h.2.symm) hc
    · split at h
      all_goals rename_i hout
      · simp only [Option.some.injEq, Prod.mk.injEq] at h
        exact absurd (congrArg Runner.child h.2.symm) hc
      · simp only [Option.some.injEq, Prod.mk.injEq] at h
        exact absurd (congrArg Runner.child h.2.symm) hc
      · simp only [Option.some.injEq, Prod.mk.injEq] at h
        exact absurd (congrArg Runner.child h.2.symm) hc
      · exact hout

theorem countItems_cons (r : RunnerPoll) (rs : List RunnerPoll) :
    countItems (r :: rs) = countItems rs + (if isItem r = true then 1 else 0) := by
  simp [countItems, List.countP_cons]

theorem isItem_true_iff (r : RunnerPoll) :
    isItem r = true ↔ ∃ rec, r = .item rec := by
  cases r <;> simp [isItem]

theorem Runner.runN_countItems :
    ∀ (k f : Nat) (st : Runner) (w : World) (n : Nat),
      st.head = some n → countItems (Runner.runN k f st w).1 ≤ n := by
  intro k
  induction k with
  | zero => intro f st w n _; simp [Runner.runN, countItems]
  | succ k ih =>
    intro f st w n hh
    cases hp : Runner.poll f st w with
    | none =>
      have hg : (Runner.runN (k + 1) f st w).1 = [] := by
        simp [Runner.runN, hp]
      rw [hg]
      simp [countItems]
    | some pr =>
      obtain ⟨r, st'⟩ := pr
      have hg : (Runner.runN (k + 1) f st w).1 = r :: (Runner.runN k f st' w).1 := by
        simp [Runner.runN, hp]
      rw [hg, countItems_cons]
      by_cases hit : isItem r = true
      · obtain ⟨rec, rfl⟩ := (isItem_true_iff r).mp hit
        obtain ⟨hne, hmap⟩ := Runner.poll_item_head f st w rec st' hp
        rw [hh] at hmap hne
        have hn1 : 1 ≤ n := by
          rcases Nat.eq_zero_or_pos n with h0 | h1
          · exact absurd (by rw [h0]) hne
          · exact h1
        have hh' : st'.head = some (n - 1) := by
          rw [hmap]
          rfl
        have hrec := ih f st' w (n - 1) hh'
        rw [if_pos hit]
        omega
      · have hh' := Runner.poll_nonitem_head f st w r st' hp (by simpa using hit)
        have hrec := ih f st' w n (by rw [hh', hh])
        rw [if_neg hit]
        omega

/-! ## Lemmas about whitespace splitting -/

theorem splitWsAux_eq_nil_iff :
    ∀ (l acc : List Nat),
      splitWsAux l acc = [] ↔ (∀ c ∈ l, isWhitespaceChar c = true) ∧ acc = [] := by
  intro l
  induction l with
  | nil =>
    intro acc
    simp only [splitWsAux]
    split <;> simp_all
  | cons c r ih =>
    intro acc
    simp only [splitWsAux]
    split
    · rename_i hws
      split
      · rename_i hacc
        rw [ih []]
        simp [hws, hacc]
      · rename_i hacc
        constructor
        · intro h
          exact absurd h (by simp)
        · rintro ⟨-, h2⟩
          exact absurd h2 hacc
    · rename_i hws
      rw [ih (c :: acc)]
      constructor
      · rintro ⟨-, h2⟩
        exact absurd h2 (by simp)
      · rintro ⟨h1, -⟩
        exact absurd (h1 c (List.mem_cons_self c r)) hws

/-- The byte-level content of an emitted line never contains the
delimiter. -/
theorem no_nl_dropLast_append {buf : List Nat} (src : List Nat) (hb : 10 ∉ buf) :
    10 ∉ (buf ++ (readUntilNL src).1).dropLast := by
  by_cases hc : (readUntilNL src).1 = []
  · rw [hc, List.append_nil]
    intro hmem
    exact hb (List.mem_of_mem_dropLast hmem)
  · rw [List.dropLast_append_of_ne_nil buf hc]
    intro hmem
    rcases List.mem_append.mp hmem with h | h
    · exact hb h
    · exact readUntilNL_no_nl src h

/-! ## The claims -/

/-- C1: evaluation of the code at the failing input.  The claim says
the byte input "a\nb\nc" (no trailing delimiter) yields the lines
["a", "b", "c"]; the decoder in the source instead yields
["a", "b", ""], because `LossyLines::poll` pops the last buffered
byte even when the chunk read from a source that closed mid-line
carries no trailing newline, so the final line loses its last byte. -/
theorem c1_unterminated_final_line :
    linesOfBytes [97, 10, 98, 10, 99] = [[97], [98], []] ∧
    linesOfBytes [97, 10, 98, 10, 99] ≠ [[97], [98], [99]] := by decide

/-- C2 counterexample: a supervisor with `restart = false` over a
command printing "x\ny\n" delivers x, y and then a terminal marker,
but the pull after the marker delivers another marker — a value, not
end-of-sequence — so the sequence does not end on the next pull and
the terminal state is not absorbing in the claimed sense. -/
theorem c2_counterexample :
    (Runner.runN 3 1
        ⟨0, [99], none, (mergedLines [120, 10, 121, 10] []).map OutEvent.line, false⟩
        (fun _ _ => [])).1 =
      [.item ⟨[120]⟩, .item ⟨[121]⟩, .marker] ∧
    Runner.poll 1
        (Runner.runN 3 1
          ⟨0, [99], none, (mergedLines [120, 10, 121, 10] []).map OutEvent.line, false⟩
          (fun _ _ => [])).2 (fun _ _ => []) =
      some (.marker,
        (Runner.runN 3 1
          ⟨0, [99], none, (mergedLines [120, 10, 121, 10] []).map OutEvent.line, false⟩
          (fun _ _ => [])).2) ∧
    RunnerPoll.marker ≠ RunnerPoll.endOfStream := by decide

/-- C2 amended: with `restart = false`, once the merged sequence is
exhausted every pull delivers the terminal marker again, with the
state unchanged — the sequence never ends of its own; end-of-sequence
(`Ready(None)`) is reported only when the head budget is zero. -/
theorem c2_terminal_marker_repeats :
    (∀ (w : World) (st : Runner) (f : Nat),
        st.restart = false → st.head ≠ some 0 → st.output = [] →
        Runner.poll (f + 1) st w = some (.marker, st)) ∧
    (∀ (w : World) (f : Nat) (st st' : Runner) (r : RunnerPoll),
        Runner.poll f st w = some (r, st') → r = .endOfStream →
        st.head = some 0) := by
  constructor
  · intro w st f h1 h2 h3
    simp [Runner.poll, h1, h2, h3]
  · intro w f st st' r h hr
    subst hr
    exact (Runner.poll_endS f st w st' h).1

/-- Witness for the amended C2 at concrete inputs. -/
theorem c2_terminal_marker_repeats_witness :
    Runner.poll 1 (⟨0, [99], none, [], false⟩ : Runner) (fun _ _ => []) =
      some (.marker, ⟨0, [99], none, [], false⟩) ∧
    (⟨0, [99], some 0, [], false⟩ : Runner).head = some 0 :=
  ⟨c2_terminal_marker_repeats.1 (fun _ _ => []) ⟨0, [99], none, [], false⟩ 0
      rfl (by decide) rfl,
   c2_terminal_marker_repeats.2 (fun _ _ => []) 1 ⟨0, [99], some 0, [], false⟩
      ⟨0, [99], some 0, [], false⟩ .endOfStream (by decide) rfl⟩

/-- C3: the remaining-line budget is checked before every delivery
and decremented once per delivered line: a head of `some 0` makes
the very next poll terminal with the state unchanged, and over any
number of pulls, restarts included, at most `n` lines are delivered
when the budget starts at `some n`. -/
theorem c3_head_budget :
    (∀ (w : World) (st : Runner) (f : Nat), st.head = some 0 →
        Runner.poll (f + 1) st w = some (.endOfStream, st)) ∧
    (∀ (w : World) (k f : Nat) (st : Runner) (n : Nat), st.head = some n →
        countItems (Runner.runN k f st w).1 ≤ n) := by
  constructor
  · intro w st f h
    simp [Runner.poll, h]
  · intro w k f st n hh
    exact Runner.runN_countItems k f st w n hh

/-- Witness for C3 at concrete inputs: a zero budget ends at once
even though the spawned command keeps printing, and a budget of 3
caps the deliveries of a restarting command at 3. -/
theorem c3_head_budget_witness :
    Runner.poll 1 (⟨0, [99], some 0, [.line [97]], true⟩ : Runner)
        (fun _ _ => [.line [97]]) =
      some (.endOfStream, ⟨0, [99], some 0, [.line [97]], true⟩) ∧
    countItems (Runner.runN 10 5 (⟨0, [99], some 3, [.line [97]], true⟩ : Runner)
        (fun _ _ => [.line [97]])).1 ≤ 3 :=
  ⟨c3_head_budget.1 (fun _ _ => [.line [97]]) ⟨0, [99], some 0, [.line [97]], true⟩ 0 rfl,
   c3_head_budget.2 (fun _ _ => [.line [97]]) 10 5 ⟨0, [99], some 3, [.line [97]], true⟩ 3 rfl⟩

/-- C4: with `restart = true` and no head limit a poll never reports
end-of-sequence, and exhaustion of the merged sequence re-runs the
spawn procedure for the same command string, replacing the owned
child handle and merged sequence with fresh ones. -/
theorem c4_restart_never_ends :
    (∀ (w : World) (f : Nat) (st : Runner) (r : RunnerPoll) (st' : Runner),
        st.restart = true → st.head = none →
        Runner.poll f st w = some (r, st') →
        r ≠ .endOfStream ∧ r ≠ .marker) ∧
    (∀ (w : World) (f : Nat) (st : Runner),
        st.restart = true → st.head ≠ some 0 → st.output = [] →
        Runner.poll (f + 1) st w =
          Runner.poll f
            { st with child := st.child + 1, output := w st.cmd (st.child + 1) } w) := by
  constructor
  · intro w f st r st' hr hh hp
    constructor
    · intro heq
      subst heq
      have h0 := (Runner.poll_endS f st w st' hp).1
      rw [hh] at h0
      exact Option.noConfusion h0
    · intro heq
      subst heq
      have h0 := Runner.poll_marker f st w st' hp
      rw [hr] at h0
      exact Bool.noConfusion h0
  · intro w f st h1 h2 h3
    simp [Runner.poll, h1, h2, h3]

/-- Witness for C4 at concrete inputs. -/
theorem c4_restart_never_ends_witness :
    (RunnerPoll.item ⟨[97]⟩ ≠ RunnerPoll.endOfStream ∧
      RunnerPoll.item ⟨[97]⟩ ≠ RunnerPoll.marker) ∧
    Runner.poll 2 (⟨0, [99], none, [], true⟩ : Runner) (fun _ _ => [.line [97]]) =
      Runner.poll 1 (⟨1, [99], none, [.line [97]], true⟩ : Runner)
        (fun _ _ => [.line [97]]) :=
  ⟨c4_restart_never_ends.1 (fun _ _ => [.line [97]]) 2 ⟨0, [99], none, [], true⟩
      (.item ⟨[97]⟩) ⟨1, [99], none, [], true⟩ rfl rfl (by decide),
   c4_restart_never_ends.2 (fun _ _ => [.line [97]]) 1 ⟨0, [99], none, [], true⟩
      rfl (by decide) rfl⟩

/-- C5: an I/O error reported by the merged sequence is returned as
a fatal error of the supervisor without respawning (even when
`restart` is set), and the owned child is replaced only when the
merged sequence was cleanly exhausted (`output = []`). -/
theorem c5_io_error_fatal :
    (∀ (w : World) (f : Nat) (st : Runner) (rest : List OutEvent),
        st.head ≠ some 0 → st.output = .ioError :: rest →
        Runner.poll (f + 1) st w = some (.error, { st with output := rest }) ∧
        ({ st with output := rest } : Runner).child = st.child) ∧
    (∀ (w : World) (f : Nat) (st : Runner) (r : RunnerPoll) (st' : Runner),
        Runner.poll f st w = some (r, st') → st'.child ≠ st.child →
        st.output = []) := by
  constructor
  · intro w f st rest h1 h2
    exact ⟨by simp [Runner.poll, h1, h2], rfl⟩
  · exact fun w f st r st' h hc =>
      Runner.poll_spawn_only_on_exhaustion f st w r st' h hc

/-- Witness for C5 at concrete inputs: an error event with
`restart = true` yields an error and an unchanged child handle. -/
theorem c5_io_error_fatal_witness :
    Runner.poll 1 (⟨0, [99], none, [.ioError, .line [97]], true⟩ : Runner)
        (fun _ _ => [.line [97]]) =
      some (.error, ⟨0, [99], none, [.line [97]], true⟩) ∧
    (⟨0, [99], none, [], true⟩ : Runner).output = [] :=
  ⟨(c5_io_error_fatal.1 (fun _ _ => [.line [97]]) 0
      ⟨0, [99], none, [.ioError, .line [97]], true⟩ [.line [97]] (by decide) rfl).1,
   c5_io_error_fatal.2 (fun _ _ => [.line [97]]) 2 ⟨0, [99], none, [], true⟩
      (.item ⟨[97]⟩) ⟨1, [99], none, [], true⟩ (by decide) (by decide)⟩

/-- C6: the decoder's poll terminates the sequence exactly when the
read returns zero bytes (the pure source is exhausted) and the
internal buffer is empty; this is the only way the line sequence
ends. -/
theorem c6_natural_end :
    ∀ s : LossyLines, (s.poll).1 = none ↔ (s.io = [] ∧ s.buffer = []) := by
  intro s
  constructor
  · intro h
    cases hp : s.poll with
    | mk r s' =>
      rw [hp] at h
      simp only at h
      subst h
      exact ⟨(LossyLines.poll_none hp).2.1, (LossyLines.poll_none hp).2.2⟩
  · rintro ⟨h1, h2⟩
    obtain ⟨io, buffer⟩ := s
    simp only at h1 h2
    subst h1
    subst h2
    decide

/-- C7: an emitted line never contains the newline delimiter, and
the internal buffer is newline-free and reset to empty after each
emitted line. -/
theorem c7_lines_contain_no_delimiter :
    ∀ s : LossyLines, 10 ∉ s.buffer →
      (∀ (l : List Nat) (s' : LossyLines), s.poll = (some l, s') →
         10 ∉ l ∧ s'.buffer = []) ∧
      (∀ (r : Option (List Nat)) (s' : LossyLines), s.poll = (r, s') →
         10 ∉ s'.buffer) := by
  intro s hbuf
  constructor
  · intro l s' hp
    obtain ⟨-, hb', hl, -⟩ := LossyLines.poll_some hp
    refine ⟨?_, hb'⟩
    rw [hl]
    exact utf8LossyDecode_no_nl
      ((s.buffer ++ (readUntilNL s.io).1).dropLast).length _ (le_refl _)
      (no_nl_dropLast_append s.io hbuf)
  · intro r s' hp
    cases r with
    | none =>
      obtain ⟨rfl, -, -⟩ := LossyLines.poll_none hp
      exact hbuf
    | some l =>
      obtain ⟨-, hb', -, -⟩ := LossyLines.poll_some hp
      rw [hb']
      simp

/-- Witness for C7 at a concrete input. -/
theorem c7_lines_contain_no_delimiter_witness :
    10 ∉ [104, 105] ∧ (⟨[120], []⟩ : LossyLines).buffer = [] :=
  ⟨((c7_lines_contain_no_delimiter ⟨[104, 105, 10, 120], []⟩ (by decide)).1
      [104, 105] ⟨[120], []⟩ (by decide)).1,
   ((c7_lines_contain_no_delimiter ⟨[104, 105, 10, 120], []⟩ (by decide)).1
      [104, 105] ⟨[120], []⟩ (by decide)).2⟩

/-- C8: decoding an accumulated line never fails and never drops the
line — whenever there is pending content the poll emits a line, and
the poll result carries no decode-error case at all — and invalid
byte sequences are replaced by the replacement marker U+FFFD at
their position. -/
theorem c8_lossy_decode_never_fails :
    (∀ s : LossyLines, ¬(s.io = [] ∧ s.buffer = []) →
        ∃ (l : List Nat) (s' : LossyLines), s.poll = (some l, s')) ∧
    (∀ bs : List Nat, utf8IsValid bs = false → 0xFFFD ∈ utf8LossyDecode bs) ∧
    (∀ p s : List Nat, (∀ c ∈ p, c < 0x80) →
        utf8LossyDecode (p ++ 0xFF :: s) = p ++ 0xFFFD :: utf8LossyDecode s) := by
  refine ⟨?_, ?_, ?_⟩
  · intro s hne
    cases hp : s.poll with
    | mk r s' =>
      cases r with
      | some l => exact ⟨l, s', rfl⟩
      | none =>
        exact absurd ⟨(LossyLines.poll_none hp).2.1, (LossyLines.poll_none hp).2.2⟩ hne
  · intro bs hv
    exact utf8IsValid_false_mem bs.length bs (le_refl _) hv
  · intro p s hp
    rw [utf8LossyDecode_ascii_append p (0xFF :: s) hp, utf8LossyDecode_invalid_cons]

/-- Witness for C8 at concrete inputs. -/
theorem c8_lossy_decode_never_fails_witness :
    (∃ (l : List Nat) (s' : LossyLines),
        (⟨[0xFF, 10], []⟩ : LossyLines).poll = (some l, s')) ∧
    0xFFFD ∈ utf8LossyDecode [0xFF] ∧
    utf8LossyDecode [104, 0xFF, 105] = [104, 0xFFFD, 105] :=
  ⟨c8_lossy_decode_never_fails.1 ⟨[0xFF, 10], []⟩ (by decide),
   c8_lossy_decode_never_fails.2.1 [0xFF] (by decide),
   c8_lossy_decode_never_fails.2.2 [104] [105] (by decide)⟩

/-- C9: draining the merged stream built by `Runner::run` from the
two pipes yields an interleaving of the two decoded line sequences:
every line of either pipe appears exactly once, the order within
each pipe is preserved, and only the relative order between the two
pipes is unconstrained. -/
theorem c9_merged_interleaving :
    ∀ m : Select, Interleave m.stream1.drain m.stream2.drain m.drain :=
  fun m => select_drain_interleave m.measure m (le_refl _)

/-- C10: `Runner::run` splits the command on whitespace and indexes
token 0 with no emptiness guard: when the command holds at least one
non-whitespace character the indexing is in bounds and yields the
executable and argument tokens, while an empty or all-whitespace
command makes the spawn procedure panic (modelled by `none`) instead
of returning a construction error. -/
theorem c10_spawn_token_precondition :
    ∀ cmd : List Nat,
      ((¬ ∀ c ∈ cmd, isWhitespaceChar c = true) →
        ∃ p args, Runner.run cmd = some (p, args)) ∧
      ((∀ c ∈ cmd, isWhitespaceChar c = true) → Runner.run cmd = none) := by
  intro cmd
  constructor
  · intro h
    cases hs : splitWhitespace cmd with
    | nil =>
      exact absurd (((splitWsAux_eq_nil_iff cmd []).mp hs).1) h
    | cons p args =>
      exact ⟨p, args, by simp [Runner.run, hs]⟩
  · intro h
    have hs : splitWhitespace cmd = [] := (splitWsAux_eq_nil_iff cmd []).mpr ⟨h, rfl⟩
    simp [Runner.run, hs]

/-- Witness for C10 at concrete inputs: the command "ls -l" and an
all-whitespace command. -/
theorem c10_spawn_token_precondition_witness :
    (∃ p args, Runner.run [108, 115, 32, 45, 108] = some (p, args)) ∧
    Runner.run [32, 9] = none :=
  ⟨(c10_spawn_token_precondition [108, 115, 32, 45, 108]).1 (by decide),
   (c10_spawn_token_precondition [32, 9]).2 (by decide)⟩

end Rogcat
